import Mathlib

/-!
Shallow embedding of `ctox/subst.py`: the brace expander, envlist splitter,
factor-condition evaluator, positional-argument extractor and the placeholder
resolver (`replace_braces` with its strategy chain), together with theorems
checking the specification's claims against these definitions.

Strings are modelled as `List Char`; Python regex scans over the pattern
`\x7b[^\x7b\x7d]*\x7d` (a brace group with no nested braces) and the
separator patterns are modelled as structural recursions, fuelled where the
scan jumps forward, so that every definition evaluates inside the kernel.
Python exceptions are modelled by `Except` with an error type distinguishing
`TypeError` (the "strategy does not apply" signal), `KeyError`, `IndexError`
and the final `NotImplementedError`.
-/

namespace Ctox

abbrev Str := List Char

/-- Shorthand: the character list of a string literal. -/
def ofS (s : String) : Str := s.data

/-- Python `\s` on ASCII: space, tab, newline, carriage return, vertical tab,
form feed. -/
def isSpace (c : Char) : Bool :=
  c = ' ' || c = '\t' || c = '\n' || c = '\r' || c = '\x0b' || c = '\x0c'

/-- Drop the maximal run of leading whitespace (the greedy `\s*`). -/
def dropWs : Str → Str
  | [] => []
  | c :: cs => if isSpace c then dropWs cs else c :: cs

/-- Python `str.strip()`: remove leading and trailing whitespace. -/
def strip (s : Str) : Str :=
  (dropWs ((dropWs s).reverse)).reverse

/-- After an opening brace, consume `[^\x7b\x7d]*` then a closing brace:
returns the inner text and the remainder, or `none` if another brace
intervenes or the string ends first. -/
def takeInner : Str → Option (Str × Str)
  | [] => none
  | c :: cs =>
    if c = '\x7d' then some ([], cs)
    else if c = '\x7b' then none
    else match takeInner cs with
         | some (inn, rest) => some (c :: inn, rest)
         | none => none

/-- Leftmost match of the brace-group pattern: returns
(text before the match, inner text, text after the match), so that
`s = p ++ lbrace :: inn ++ rbrace :: rest`. -/
def findGroup : Str → Option (Str × Str × Str)
  | [] => none
  | c :: cs =>
    if c = '\x7b' then
      match takeInner cs with
      | some (inn, rest) => some ([], inn, rest)
      | none =>
        match findGroup cs with
        | some (p, inn, rest) => some (c :: p, inn, rest)
        | none => none
    else
      match findGroup cs with
      | some (p, inn, rest) => some (c :: p, inn, rest)
      | none => none

/-- Python `str.split(c)` on a single character. Never returns `[]`. -/
def splitChar (c : Char) : Str → List Str
  | [] => [[]]
  | x :: xs =>
    if x = c then [] :: splitChar c xs
    else match splitChar c xs with
         | h :: t => (x :: h) :: t
         | [] => [[x]]

/-- Match the separator regex `\s* c \s*` at the head of `l`: greedy leading
whitespace, the separator character, greedy trailing whitespace. Returns the
remainder after the match. -/
def matchSep (c : Char) (l : Str) : Option Str :=
  match dropWs l with
  | x :: xs => if x = c then some (dropWs xs) else none
  | [] => none

/-- Fuelled worker for `re.split` on the pattern `\s* c \s*`: scan left to
right, at each position try the separator match, otherwise advance one
character, accumulating the current piece. -/
def splitReF (c : Char) : Nat → Str → Str → List Str
  | 0, rest, acc => [acc ++ rest]
  | _ + 1, [], acc => [acc]
  | fuel + 1, l@(x :: xs), acc =>
    match matchSep c l with
    | some rest => acc :: splitReF c fuel rest []
    | none => splitReF c fuel xs (acc ++ [x])

/-- `re.split(r"\s* c \s*", s)`. -/
def splitRe (c : Char) (s : Str) : List Str :=
  splitReF c (s.length + 1) s []

/-- Fuelled worker for `_split_out_of_braces`: scan for
`brace-group | \s*,\s*`; brace groups are consumed whole (so commas inside
them never separate), separator matches cut the string, empty pieces are
dropped. -/
def sobF : Nat → Str → Str → List Str
  | 0, rest, acc => if acc ++ rest ≠ [] then [acc ++ rest] else []
  | _ + 1, [], acc => if acc ≠ [] then [acc] else []
  | fuel + 1, l@(x :: xs), acc =>
    if x = '\x7b' then
      match takeInner xs with
      | some (inn, rest) => sobF fuel rest (acc ++ '\x7b' :: inn ++ ['\x7d'])
      | none => sobF fuel xs (acc ++ [x])
    else
      match matchSep ',' l with
      | some rest => (if acc ≠ [] then [acc] else []) ++ sobF fuel rest []
      | none => sobF fuel xs (acc ++ [x])

/-- `_split_out_of_braces`: split on top-level commas, keeping text inside
brace groups intact and dropping empty pieces. -/
def split_out_of_braces (s : Str) : List Str :=
  sobF (s.length + 1) s []

/-- Fuelled worker listing every non-overlapping brace-group match: returns
the (preceding text, inner text) pairs in scan order and the trailing text. -/
def findGroupsF : Nat → Str → List (Str × Str) × Str
  | 0, s => ([], s)
  | fuel + 1, s =>
    match findGroup s with
    | none => ([], s)
    | some (p, inn, rest) =>
      let r := findGroupsF fuel rest
      ((p, inn) :: r.1, r.2)

/-- All brace-group matches of `s`, as (preceding text, inner text) pairs in
scan order, with the trailing text. -/
def findGroups (s : Str) : List (Str × Str) × Str :=
  findGroupsF (s.length + 1) s

/-- Turn the structural match list into `(start, stop)` offset pairs, as
`re.finditer` match objects carry. -/
def offsetsAux : Nat → List (Str × Str) → List (Nat × Nat)
  | _, [] => []
  | pos, (p, inn) :: rest =>
    (pos + p.length, pos + p.length + inn.length + 2) ::
      offsetsAux (pos + p.length + inn.length + 2) rest

/-- Offsets of the brace-group matches of `s` in scan order. -/
def matchOffsets (s : Str) : List (Nat × Nat) :=
  offsetsAux 0 (findGroups s).1

/-- `match.group()[1:-1]`: the inner text of the match at offsets `mt`,
sliced from the original string. -/
def group_inner (s : Str) (mt : Nat × Nat) : Str :=
  (s.drop (mt.1 + 1)).take (mt.2 - mt.1 - 2)

/-- `_replace_curly`: fold one match into the candidate list; alternatives are
the comma-split of the inner text, and each candidate is sliced at the match's
original offsets. The outer iteration is over alternatives, the inner over
existing candidates, exactly as the Python list comprehension nests. -/
def replace_curly (s : Str) (envlist : List Str) (mt : Nat × Nat) : List Str :=
  ((splitRe ',' (group_inner s mt)).map
    (fun frag => envlist.map (fun e => e.take mt.1 ++ frag ++ e.drop mt.2))).flatten

/-- `expand_curlys`: reduce over the matches in reverse source order starting
from `[s]`. -/
def expand_curlys (s : Str) : List Str :=
  ((matchOffsets s).reverse).foldl (replace_curly s) [s]

/-- `bash_expand`: split on top-level commas, brace-expand each piece,
concatenate in order. -/
def bash_expand (s : Str) : List Str :=
  ((split_out_of_braces s).map expand_curlys).flatten

/-- `parse_envlist` just delegates to `bash_expand`. -/
def parse_envlist (s : Str) : List Str :=
  bash_expand s

/-- The external environment descriptor: named attributes, the environment's
name, a configuration lookup, the raw option tokens, and the process
environment (`os.environ`, threaded explicitly). -/
structure Env where
  name : Str
  attr : Str → Option Str
  config : Str → Str → Option Str
  options : List Str
  environ : Str → Option Str

/-- `expand_factor_conditions`: split on `\s*:\s*`; on exactly two parts with
the left part not the reserved word `env`, return the right part when the
brace-expanded left labels intersect the name's `-`-split labels, else the
empty string; otherwise return the input unchanged. -/
def expand_factor_conditions (s : Str) (env : Env) : Str :=
  let e := splitRe ':' s
  if e.length = 2 ∧ e.getD 0 [] ≠ ofS "env" then
    if (bash_expand (e.getD 0 [])).any
        (fun lab => (splitChar '-' env.name).contains lab) then
      e.getD 1 []
    else []
  else s

/-- Does a token start with `-`? (Python `str.startswith('-')`.) -/
def startsWithDash : Str → Bool
  | '-' :: _ => true
  | _ => false

/-- The `else` loop of `positional_args`: yield tokens until one starts with
`-`. -/
def posLoop : List Str → List Str
  | [] => []
  | a :: rest => if startsWithDash a then [] else a :: posLoop rest

/-- `positional_args`: everything after a leading `--` verbatim, otherwise the
tokens before the first one starting with `-`. -/
def positional_args (arguments : List Str) : List Str :=
  if arguments.head? = some (ofS "--") then arguments.tail
  else posLoop arguments

/-- Python exceptions the resolver distinguishes: `TypeError` is the
"strategy does not apply" signal; `KeyError` a missing environment variable or
configuration key; `IndexError` an out-of-range list subscript;
`notImplemented` the final unsupported-placeholder error with its message. -/
inductive Err where
  | typeError : Err
  | keyError : Str → Err
  | indexError : Err
  | notImplemented : Str → Err
deriving DecidableEq

/-- `_replace_envvar`: `env:KEY` or `env:KEY:DEFAULT` on a plain colon split;
any other shape raises `TypeError`. -/
def replace_envvar (s : Str) (env : Env) : Except Err Str :=
  let e := splitChar ':' s
  if 3 < e.length ∨ e.length = 1 ∨ e.getD 0 [] ≠ ofS "env" then
    Except.error Err.typeError
  else match e with
    | [_, key] =>
      match env.environ key with
      | some v => Except.ok v
      | none => Except.error (Err.keyError key)
    | [_, key, dflt] => Except.ok ((env.environ key).getD dflt)
    | _ => Except.error Err.typeError

/-- The anchored match `\[(.*?)\](.*)`: the section is the text between a
leading `[` and the first `]` (no newline may intervene), the option the rest
of that line. -/
def matchConfig : Str → Option (Str × Str)
  | '[' :: rest =>
    (bracketSplit rest).map (fun pr => (pr.1, pr.2.takeWhile (fun c => c ≠ '\n')))
  | _ => none
where
  bracketSplit : Str → Option (Str × Str)
    | [] => none
    | c :: cs =>
      if c = ']' then some ([], cs)
      else if c = '\n' then none
      else (bracketSplit cs).map (fun pr => (c :: pr.1, pr.2))

/-- `_replace_config`: on `[SECTION]OPTION`, look the option up, split the raw
value on newlines, evaluate each line's factor condition, rejoin with
newlines; a non-matching shape raises `TypeError`, a missing key `KeyError`. -/
def replace_config (s : Str) (env : Env) : Except Err Str :=
  match matchConfig s with
  | some (sec, opt) =>
    match env.config sec opt with
    | some expanded =>
      Except.ok (List.intercalate ['\n']
        ((splitChar '\n' expanded).map (fun e => expand_factor_conditions e env)))
    | none => Except.error (Err.keyError (sec ++ opt))
  | none => Except.error Err.typeError

/-- `_replace_posargs`: on `posargs` or `posargs:DEFAULT` (split on
`\s*:\s*`), join the positional arguments with spaces and return that when
non-empty, else the part after the colon — subscripting `e[1]` raises
`IndexError` when there is no such part. A first part other than `posargs`
raises `TypeError`. -/
def replace_posargs (s : Str) (env : Env) : Except Err Str :=
  match splitRe ':' s with
  | [] => Except.error Err.indexError
  | e0 :: rest =>
    if e0 = ofS "posargs" then
      let j := List.intercalate [' '] (positional_args env.options)
      if j ≠ [] then Except.ok j
      else match rest with
           | d :: _ => Except.ok d
           | [] => Except.error Err.indexError
    else Except.error Err.typeError

/-- The `NotImplementedError` message
`"\x7b%s\x7d not understood in tox.ini file."`. -/
def errMsg (s : Str) : Str :=
  '\x7b' :: (s ++ ('\x7d' :: " not understood in tox.ini file.".data))

/-- `_replace_match`: strip the inner text, try the attribute lookup, then the
three strategies in order catching only `TypeError`, and finally raise the
unsupported-placeholder error naming the text. -/
def replace_match (inn : Str) (env : Env) : Except Err Str :=
  let s := strip inn
  match env.attr s with
  | some v => Except.ok v
  | none =>
    match replace_envvar s env with
    | Except.error Err.typeError =>
      match replace_config s env with
      | Except.error Err.typeError =>
        match replace_posargs s env with
        | Except.error Err.typeError => Except.error (Err.notImplemented (errMsg s))
        | r => r
      | r => r
    | r => r

/-- Fuelled worker for one `re.sub` pass: replace each brace-group match left
to right, never rescanning replacement text within the pass; the first raised
error aborts the pass. -/
def subPassF (env : Env) : Nat → Str → Except Err Str
  | 0, l => Except.ok l
  | fuel + 1, l =>
    match findGroup l with
    | none => Except.ok l
    | some (p, inn, rest) =>
      match replace_match inn env with
      | Except.ok rep =>
        match subPassF env fuel rest with
        | Except.ok t => Except.ok (p ++ rep ++ t)
        | Except.error e => Except.error e
      | Except.error e => Except.error e

/-- One `re.sub(r"\x7b[^\x7b\x7d]*\x7d", replace, s)` pass. -/
def subPass (env : Env) (s : Str) : Except Err Str :=
  subPassF env (s.length + 1) s

/-- The module-level pass cap. -/
def DEPTH : Nat := 5

/-- Run `n` substitution passes, threading the first raised error. -/
def iteratePasses (env : Env) : Nat → Except Err Str → Except Err Str
  | 0, r => r
  | n + 1, r => iteratePasses env n (Except.bind r (subPass env))

/-- `replace_braces`: exactly `DEPTH` substitution passes over `s`. -/
def replace_braces (s : Str) (env : Env) : Except Err Str :=
  iteratePasses env DEPTH (Except.ok s)

/-- An environment named `py34-foo` with nothing else to offer. -/
def env34 : Env :=
  { name := ofS "py34-foo", attr := fun _ => none, config := fun _ _ => none,
    options := [], environ := fun _ => none }

/-- An environment named `py26-foo` with nothing else to offer. -/
def env26 : Env :=
  { name := ofS "py26-foo", attr := fun _ => none, config := fun _ _ => none,
    options := [], environ := fun _ => none }

/-- An environment whose attributes chain five levels of indirection:
`a1 ↦ \x7ba2\x7d`, …, `a4 ↦ \x7ba5\x7d`, `a5 ↦ done`, so resolving
`\x7ba1\x7d` needs exactly five passes. -/
def chain5 : Env :=
  { name := ofS "x",
    attr := fun s =>
      if s = ofS "a1" then some (ofS "\x7ba2\x7d")
      else if s = ofS "a2" then some (ofS "\x7ba3\x7d")
      else if s = ofS "a3" then some (ofS "\x7ba4\x7d")
      else if s = ofS "a4" then some (ofS "\x7ba5\x7d")
      else if s = ofS "a5" then some (ofS "done")
      else none,
    config := fun _ _ => none, options := [], environ := fun _ => none }

/-- Like `chain5` with one more level: `a5 ↦ \x7ba6\x7d`, `a6 ↦ done`, so
resolving `\x7ba1\x7d` would need six passes. -/
def chain6 : Env :=
  { name := ofS "x",
    attr := fun s =>
      if s = ofS "a1" then some (ofS "\x7ba2\x7d")
      else if s = ofS "a2" then some (ofS "\x7ba3\x7d")
      else if s = ofS "a3" then some (ofS "\x7ba4\x7d")
      else if s = ofS "a4" then some (ofS "\x7ba5\x7d")
      else if s = ofS "a5" then some (ofS "\x7ba6\x7d")
      else if s = ofS "a6" then some (ofS "done")
      else none,
    config := fun _ _ => none, options := [], environ := fun _ => none }

/-- An environment carrying two positional tokens followed by a flag. -/
def argEnv : Env :=
  { name := ofS "x", attr := fun _ => none, config := fun _ _ => none,
    options := [ofS "a1", ofS "a2", ofS "--k"], environ := fun _ => none }

/-- An environment whose process environment sets only `K=val`. -/
def wEnv : Env :=
  { name := ofS "x", attr := fun _ => none, config := fun _ _ => none,
    options := [], environ := fun k => if k = ofS "K" then some (ofS "val") else none }

/-- An environment whose configuration has `[testenv] deps` with one
factor-gated line per flavour. -/
def envCfg : Env :=
  { name := ofS "py34-foo", attr := fun _ => none,
    config := fun sec opt =>
      if sec = ofS "testenv" ∧ opt = ofS "deps" then
        some (ofS "py\x7b33,34\x7d: docformatter\nnose\npy26: old")
      else none,
    options := [], environ := fun _ => none }

/-- C1. Brace expansion of a top-level comma list is the per-segment
cartesian product, segments concatenated in order, the rightmost group
varying fastest; per-segment `expand` of `py\x7b26,27\x7d` is
`[py26, py27]`. -/
theorem claim1_bash_expand_cartesian :
    bash_expand (ofS "\x7bpy26,py27\x7d-django\x7b15,16\x7d, py32") =
      [ofS "py26-django15", ofS "py26-django16", ofS "py27-django15",
       ofS "py27-django16", ofS "py32"]
    ∧ expand_curlys (ofS "py\x7b26,27\x7d") = [ofS "py26", ofS "py27"] :=
  ⟨rfl, rfl⟩

/-- C2. `replace_braces` always performs exactly `DEPTH = 5` flat
match-and-replace passes; a placeholder chain needing exactly five passes
resolves fully (and four passes would not suffice), while a six-level chain
returns normally with the innermost group `\x7ba6\x7d` left unexpanded —
no error, no divergence. -/
theorem claim2_five_passes_depth_cap :
    (∀ (s : Str) (env : Env),
      replace_braces s env =
        Except.bind (Except.bind (Except.bind (Except.bind
          (Except.bind (Except.ok s) (subPass env))
          (subPass env)) (subPass env)) (subPass env)) (subPass env))
    ∧ replace_braces (ofS "\x7ba1\x7d") chain5 = Except.ok (ofS "done")
    ∧ (findGroup (ofS "done")).isSome = false
    ∧ iteratePasses chain5 4 (Except.ok (ofS "\x7ba1\x7d")) =
        Except.ok (ofS "\x7ba5\x7d")
    ∧ replace_braces (ofS "\x7ba1\x7d") chain6 = Except.ok (ofS "\x7ba6\x7d")
    ∧ (findGroup (ofS "\x7ba6\x7d")).isSome = true :=
  ⟨fun _ _ => rfl, rfl, rfl, rfl, rfl, rfl⟩

/-- C5. The positional-argument strategy joins positional arguments with
single spaces, returning that when non-empty and the text after the colon
otherwise; but the bare form `posargs` with no positional arguments raises
`IndexError` (the Python code subscripts `e[1]` on a one-element split)
instead of yielding the empty string the specification prescribes, and the
error escapes `replace_braces` uncaught. -/
theorem claim5_bare_posargs_index_error :
    replace_posargs (ofS "posargs:none") env34 = Except.ok (ofS "none")
    ∧ replace_posargs (ofS "posargs:none") argEnv = Except.ok (ofS "a1 a2")
    ∧ replace_posargs (ofS "posargs") argEnv = Except.ok (ofS "a1 a2")
    ∧ replace_posargs (ofS "posargs") env34 = Except.error Err.indexError
    ∧ replace_braces (ofS "\x7bposargs\x7d") env34 = Except.error Err.indexError :=
  ⟨rfl, rfl, rfl, rfl, rfl⟩

/-- `posLoop` takes the longest dash-free leading run. -/
theorem posLoop_eq_takeWhile (l : List Str) :
    posLoop l = l.takeWhile (fun t => !startsWithDash t) := by
  induction l with
  | nil => rfl
  | cons a rest ih =>
    by_cases h : startsWithDash a <;> simp [posLoop, List.takeWhile, h, ih]

/-- C7. After a leading literal `--` every remaining token is positional,
verbatim and in order; otherwise the positional arguments are the longest
leading run of tokens not starting with `-` (scanning stops for good at the
first dash token). The spec's two examples evaluate as stated. -/
theorem claim7_positional_extraction :
    (∀ args : List Str, args.head? = some (ofS "--") →
      positional_args args = args.tail)
    ∧ (∀ args : List Str, args.head? ≠ some (ofS "--") →
      positional_args args = args.takeWhile (fun t => !startsWithDash t))
    ∧ positional_args [ofS "arg1", ofS "arg2", ofS "--kwarg"] =
        [ofS "arg1", ofS "arg2"]
    ∧ positional_args [ofS "--", ofS "arg1", ofS "--kwarg"] =
        [ofS "arg1", ofS "--kwarg"] := by
  refine ⟨fun args h => ?_, fun args h => ?_, rfl, rfl⟩
  · simp only [positional_args]
    rw [if_pos h]
  · simp only [positional_args]
    rw [if_neg h, posLoop_eq_takeWhile]

/-- Witness for C7 at concrete inputs. -/
theorem claim7_positional_extraction_witness :
    positional_args [ofS "--", ofS "x"] = [ofS "x"]
    ∧ positional_args [ofS "a", ofS "-b"] = [ofS "a"] :=
  ⟨claim7_positional_extraction.1 _ rfl,
   claim7_positional_extraction.2.1 [ofS "a", ofS "-b"] (by decide)⟩

/-- `str.split(c)` never returns the empty list. -/
theorem splitChar_ne_nil (c : Char) (s : Str) : splitChar c s ≠ [] := by
  induction s with
  | nil => simp [splitChar]
  | cons x xs ih =>
    by_cases hx : x = c
    · simp [splitChar, hx]
    · simp only [splitChar, if_neg hx]
      cases h : splitChar c xs with
      | nil => simp
      | cons a t => simp

/-- Splitting a string without the separator character leaves it whole. -/
theorem splitChar_of_not_mem (c : Char) (a : Str) (h : c ∉ a) :
    splitChar c a = [a] := by
  induction a with
  | nil => rfl
  | cons x xs ih =>
    have hx : ¬ (x = c) := fun he => h (by simp [he])
    have hxs : c ∉ xs := fun hm => h (List.mem_cons_of_mem _ hm)
    simp [splitChar, hx, ih hxs]

/-- Splitting cuts at the first separator when the head part is clean. -/
theorem splitChar_append (c : Char) (a b : Str) (h : c ∉ a) :
    splitChar c (a ++ c :: b) = a :: splitChar c b := by
  induction a with
  | nil => simp [splitChar]
  | cons x xs ih =>
    have hx : ¬ (x = c) := fun he => h (by simp [he])
    have hxs : c ∉ xs := fun hm => h (List.mem_cons_of_mem _ hm)
    simp only [List.cons_append, splitChar, if_neg hx, List.append_eq]
    rw [ih hxs]

/-- A list whose `head?` is `some x` has `x` at subscript zero. -/
theorem getD_zero_of_head? (l : List Str) (x : Str) (h : l.head? = some x) :
    l.getD 0 [] = x := by
  cases l <;> simp_all

/-- C4. The environment-variable strategy: `env:KEY` propagates a missing-key
error when `KEY` is unset and returns its value otherwise; `env:KEY:DEFAULT`
never fails, returning the value when set and `DEFAULT` when unset; any other
colon shape (one part, more than three parts, or first part not `env`) raises
the strategy-does-not-apply signal, which `replace_match` swallows, falling
through to the next strategy rather than erroring. -/
theorem claim4_envvar_strategy :
    ∀ (env : Env) (key dflt : Str), ':' ∉ key → ':' ∉ dflt →
      (env.environ key = none →
        replace_envvar (ofS "env:" ++ key) env = Except.error (Err.keyError key))
      ∧ (∀ v, env.environ key = some v →
        replace_envvar (ofS "env:" ++ key) env = Except.ok v)
      ∧ (∀ v, env.environ key = some v →
        replace_envvar (ofS "env:" ++ key ++ ':' :: dflt) env = Except.ok v)
      ∧ (env.environ key = none →
        replace_envvar (ofS "env:" ++ key ++ ':' :: dflt) env = Except.ok dflt)
      ∧ (∀ s : Str,
          (splitChar ':' s).length = 1 ∨ 3 < (splitChar ':' s).length ∨
            (splitChar ':' s).getD 0 [] ≠ ofS "env" →
          replace_envvar s env = Except.error Err.typeError)
      ∧ (∀ inn, env.attr (strip inn) = none →
          replace_envvar (strip inn) env = Except.error Err.typeError →
          ∀ v, replace_config (strip inn) env = Except.ok v →
          replace_match inn env = Except.ok v) := by
  intro env key dflt hk hd
  have h2 : splitChar ':' (ofS "env:" ++ key) = [ofS "env", key] := by
    have he : ofS "env:" ++ key = ofS "env" ++ ':' :: key := rfl
    rw [he, splitChar_append ':' _ _ (by decide), splitChar_of_not_mem ':' _ hk]
  have h3 : splitChar ':' (ofS "env:" ++ key ++ ':' :: dflt) =
      [ofS "env", key, dflt] := by
    have he : ofS "env:" ++ key ++ ':' :: dflt =
        ofS "env" ++ ':' :: (key ++ ':' :: dflt) := by
      simp [ofS]
    rw [he, splitChar_append ':' _ _ (by decide), splitChar_append ':' _ _ hk,
      splitChar_of_not_mem ':' _ hd]
  refine ⟨?_, ?_, ?_, ?_, ?_, ?_⟩
  · intro henv
    simp only [replace_envvar, h2, henv]
    rw [if_neg (by simp)]
  · intro v henv
    simp only [replace_envvar, h2, henv]
    rw [if_neg (by simp)]
  · intro v henv
    simp only [replace_envvar, h3, henv]
    rw [if_neg (by simp)]
    simp [Option.getD]
  · intro henv
    simp only [replace_envvar, h3, henv]
    rw [if_neg (by simp)]
    simp [Option.getD]
  · intro s hshape
    simp only [replace_envvar]
    rw [if_pos]
    rcases hshape with h1 | h1 | h1
    · exact Or.inr (Or.inl h1)
    · exact Or.inl h1
    · exact Or.inr (Or.inr h1)
  · intro inn hattr henv v hcfg
    simp only [replace_match, hattr, henv, hcfg]

/-- Witness for C4: a set key resolves, an unset one with a default falls
back, an unset one without a default fails, and a malformed shape signals
not-applicable. -/
theorem claim4_envvar_strategy_witness :
    replace_envvar (ofS "env:K:d") wEnv = Except.ok (ofS "val")
    ∧ replace_envvar (ofS "env:M:d") wEnv = Except.ok (ofS "d")
    ∧ replace_envvar (ofS "env:M") wEnv = Except.error (Err.keyError (ofS "M"))
    ∧ replace_envvar (ofS "a:b:c:d") wEnv = Except.error Err.typeError := by
  have h := claim4_envvar_strategy wEnv (ofS "K") (ofS "d") (by decide) (by decide)
  have h' := claim4_envvar_strategy wEnv (ofS "M") (ofS "d") (by decide) (by decide)
  exact ⟨h.2.2.1 (ofS "val") rfl, h'.2.2.2.1 rfl, h'.1 rfl,
    h.2.2.2.2.1 (ofS "a:b:c:d") (by decide)⟩

/-- C6. Factor-condition evaluation: with exactly two colon parts whose left
part is not the reserved word `env`, the right part is returned exactly when
the brace-expanded left labels meet the environment name's `-`-split labels
and the empty string otherwise; in every other shape the segment is returned
unchanged. -/
theorem claim6_factor_condition_eval :
    ∀ (s : Str) (env : Env),
      (∀ l r, splitRe ':' s = [l, r] → l ≠ ofS "env" →
        expand_factor_conditions s env =
          if (bash_expand l).any (fun lab => (splitChar '-' env.name).contains lab)
          then r else [])
      ∧ ((splitRe ':' s).length ≠ 2 ∨ (splitRe ':' s).head? = some (ofS "env") →
        expand_factor_conditions s env = s) := by
  intro s env
  constructor
  · intro l r h hne
    simp only [expand_factor_conditions, h]
    rw [if_pos (⟨rfl, hne⟩ : [l, r].length = 2 ∧ [l, r].getD 0 [] ≠ ofS "env")]
    rfl
  · intro hcase
    have hfalse : ¬ ((splitRe ':' s).length = 2 ∧
        (splitRe ':' s).getD 0 [] ≠ ofS "env") := by
      rcases hcase with h1 | h2
      · exact fun hc => h1 hc.1
      · exact fun hc => hc.2 (getD_zero_of_head? _ _ h2)
    simp only [expand_factor_conditions]
    rw [if_neg hfalse]

/-- Witness for C6: the spec's three examples. -/
theorem claim6_factor_condition_eval_witness :
    expand_factor_conditions (ofS "py\x7b33,34\x7d: docformatter") env34 =
      ofS "docformatter"
    ∧ expand_factor_conditions (ofS "py\x7b33,34\x7d: docformatter") env26 = []
    ∧ expand_factor_conditions (ofS "env:FOO: bar") env34 = ofS "env:FOO: bar" := by
  refine ⟨?_, ?_, ?_⟩
  · rw [(claim6_factor_condition_eval _ env34).1 (ofS "py\x7b33,34\x7d")
      (ofS "docformatter") (by decide) (by decide)]
    decide
  · rw [(claim6_factor_condition_eval _ env26).1 (ofS "py\x7b33,34\x7d")
      (ofS "docformatter") (by decide) (by decide)]
    decide
  · exact (claim6_factor_condition_eval _ env34).2 (by decide)

/-- An error survives any number of further substitution passes. -/
theorem iteratePasses_error (env : Env) (e : Err) :
    ∀ n, iteratePasses env n (Except.error e) = Except.error e
  | 0 => rfl
  | n + 1 => iteratePasses_error env e n

/-- C3. If the first brace group's resolution raises, the whole
`replace_braces` call returns exactly that error (no partially substituted
string escapes); and when the stripped inner text matches none of the four
strategies — no attribute, and `TypeError` from the env-var, config and
posargs strategies — the error is the unsupported-placeholder error whose
message contains the offending text. -/
theorem claim3_unresolvable_aborts :
    ∀ (env : Env) (e : Err) (s p inn rest : Str),
      (findGroup s = some (p, inn, rest) →
        replace_match inn env = Except.error e →
        replace_braces s env = Except.error e)
      ∧ (env.attr (strip inn) = none →
        replace_envvar (strip inn) env = Except.error Err.typeError →
        replace_config (strip inn) env = Except.error Err.typeError →
        replace_posargs (strip inn) env = Except.error Err.typeError →
        replace_match inn env =
          Except.error (Err.notImplemented (errMsg (strip inn)))
        ∧ strip inn <:+: errMsg (strip inn)) := by
  intro env e s p inn rest
  constructor
  · intro h1 h2
    have hsub : subPass env s = Except.error e := by
      simp only [subPass, subPassF, h1, h2]
    have h0 : replace_braces s env = iteratePasses env 4 (subPass env s) := rfl
    rw [h0, hsub, iteratePasses_error]
  · intro ha hv hc hp
    refine ⟨?_, ⟨['\x7b'], '\x7d' :: ofS " not understood in tox.ini file.", rfl⟩⟩
    simp only [replace_match, ha, hv, hc, hp]

/-- Witness for C3: `\x7bbogus\x7d` fits no strategy and the whole resolution
aborts with the message naming it. -/
theorem claim3_unresolvable_aborts_witness :
    replace_braces (ofS "\x7bbogus\x7d") env34 =
      Except.error (Err.notImplemented (errMsg (ofS "bogus"))) := by
  have h := (claim3_unresolvable_aborts env34
    (Err.notImplemented (errMsg (strip (ofS "bogus")))) (ofS "\x7bbogus\x7d")
    [] (ofS "bogus") []).2 rfl rfl rfl rfl
  exact (claim3_unresolvable_aborts env34 _ (ofS "\x7bbogus\x7d")
    [] (ofS "bogus") []).1 rfl h.1

/-- Every piece of a character split is free of the separator. -/
theorem not_mem_of_mem_splitChar (c : Char) (s x : Str)
    (hx : x ∈ splitChar c s) : c ∉ x := by
  induction s generalizing x with
  | nil =>
    simp [splitChar] at hx
    subst hx
    simp
  | cons a as ih =>
    by_cases ha : a = c
    · simp only [splitChar, if_pos ha] at hx
      rcases List.mem_cons.mp hx with h | h
      · subst h; simp
      · exact ih _ h
    · simp only [splitChar, if_neg ha] at hx
      cases hsp : splitChar c as with
      | nil => exact absurd hsp (splitChar_ne_nil c as)
      | cons h0 t =>
        rw [hsp] at hx
        rcases List.mem_cons.mp hx with h | h
        · subst h
          intro hmem
          rcases List.mem_cons.mp hmem with h' | h'
          · exact ha h'.symm
          · exact ih h0 (by rw [hsp]; exact List.mem_cons_self h0 t) h'
        · exact ih x (by rw [hsp]; exact List.mem_cons_of_mem _ h)

/-- Unfolding `intercalate` over at least two pieces. -/
theorem intercalate_cons₂ (c : Char) (x y : Str) (rest : List Str) :
    List.intercalate [c] (x :: y :: rest) =
      x ++ c :: List.intercalate [c] (y :: rest) := by
  simp [List.intercalate]

/-- Splitting undoes intercalating when no piece contains the separator. -/
theorem splitChar_intercalate (c : Char) :
    ∀ (parts : List Str), parts ≠ [] → (∀ x ∈ parts, c ∉ x) →
      splitChar c (List.intercalate [c] parts) = parts := by
  intro parts
  induction parts with
  | nil => intro h; exact absurd rfl h
  | cons x xs ih =>
    intro _ hmem
    cases xs with
    | nil =>
      have h1 : List.intercalate [c] [x] = x := by simp [List.intercalate]
      rw [h1, splitChar_of_not_mem c x (hmem x (by simp))]
    | cons y rest =>
      rw [intercalate_cons₂, splitChar_append c x _ (hmem x (by simp)),
        ih (by simp) (fun z hz => hmem z (List.mem_cons_of_mem _ hz))]

/-- Characters survive the whitespace trim. -/
theorem mem_dropWs (c : Char) (l : Str) (h : c ∈ dropWs l) : c ∈ l := by
  induction l with
  | nil => simp [dropWs] at h
  | cons x xs ih =>
    by_cases hx : isSpace x
    · simp only [dropWs, if_pos hx] at h
      exact List.mem_cons_of_mem x (ih h)
    · simpa only [dropWs, if_neg hx] using h

/-- The remainder of a separator match only contains input characters. -/
theorem mem_matchSep (c : Char) (l rest : Str) (h : matchSep c l = some rest)
    (ch : Char) (hc : ch ∈ rest) : ch ∈ l := by
  cases hd : dropWs l with
  | nil => simp [matchSep, hd] at h
  | cons x xs =>
    simp only [matchSep, hd] at h
    by_cases hx : x = c
    · rw [if_pos hx] at h
      injection h with h'
      subst h'
      exact mem_dropWs ch l (hd ▸ List.mem_cons_of_mem x (mem_dropWs ch xs hc))
    · rw [if_neg hx] at h; cases h

/-- A successful separator match means the separator occurs in the input. -/
theorem matchSep_mem (c : Char) (l rest : Str) (h : matchSep c l = some rest) :
    c ∈ l := by
  cases hd : dropWs l with
  | nil => simp [matchSep, hd] at h
  | cons x xs =>
    simp only [matchSep, hd] at h
    by_cases hx : x = c
    · exact mem_dropWs c l (hd ▸ (hx ▸ List.mem_cons_self x xs))
    · rw [if_neg hx] at h; cases h

/-- Characters of every regex-split piece come from the accumulator or the
remaining input. -/
theorem mem_splitReF_chars (c : Char) :
    ∀ (fuel : Nat) (l acc x : Str), x ∈ splitReF c fuel l acc →
      ∀ ch ∈ x, ch ∈ acc ∨ ch ∈ l := by
  intro fuel
  induction fuel with
  | zero =>
    intro l acc x hx ch hch
    simp only [splitReF, List.mem_singleton] at hx
    subst hx
    exact List.mem_append.mp hch
  | succ fuel ih =>
    intro l acc x hx ch hch
    cases l with
    | nil =>
      simp only [splitReF, List.mem_singleton] at hx
      subst hx
      exact Or.inl hch
    | cons a as =>
      simp only [splitReF] at hx
      cases hm : matchSep c (a :: as) with
      | some rest =>
        rw [hm] at hx
        rcases List.mem_cons.mp hx with h | h
        · subst h; exact Or.inl hch
        · rcases ih rest [] x h ch hch with h' | h'
          · cases h'
          · exact Or.inr (mem_matchSep c _ rest hm ch h')
      | none =>
        rw [hm] at hx
        rcases ih as (acc ++ [a]) x hx ch hch with h' | h'
        · rcases List.mem_append.mp h' with h'' | h''
          · exact Or.inl h''
          · simp only [List.mem_singleton] at h''
            exact Or.inr (by rw [h'']; exact List.mem_cons_self a as)
        · exact Or.inr (List.mem_cons_of_mem a h')

/-- Characters of a `splitRe` piece come from the input. -/
theorem mem_splitRe_chars (c : Char) (s x : Str) (hx : x ∈ splitRe c s)
    (ch : Char) (hch : ch ∈ x) : ch ∈ s := by
  rcases mem_splitReF_chars c (s.length + 1) s [] x hx ch hch with h | h
  · cases h
  · exact h

/-- The factor-condition evaluator introduces no newline into a
newline-free line. -/
theorem efc_no_newline (line : Str) (env : Env) (h : '\n' ∉ line) :
    '\n' ∉ expand_factor_conditions line env := by
  simp only [expand_factor_conditions]
  by_cases hc : (splitRe ':' line).length = 2 ∧
      (splitRe ':' line).getD 0 [] ≠ ofS "env"
  · rw [if_pos hc]
    obtain ⟨l, r, hsp⟩ := List.length_eq_two.mp hc.1
    by_cases ha : (bash_expand ((splitRe ':' line).getD 0 [])).any
        (fun lab => (splitChar '-' env.name).contains lab)
    · rw [if_pos ha, hsp]
      intro hmem
      exact h (mem_splitRe_chars ':' line r (by rw [hsp]; simp) '\n' hmem)
    · rw [if_neg ha]
      simp
  · rw [if_neg hc]
    exact h

/-- C8. On a `[SECTION]OPTION` placeholder whose lookup succeeds, the
configuration strategy returns the raw value's newline-split lines each run
through the factor-condition evaluator and rejoined with newlines; splitting
the output on newlines recovers exactly the evaluated lines (a failed
condition leaves an empty line, nothing is removed), so the line count is
preserved. -/
theorem claim8_config_strategy :
    ∀ (s : Str) (env : Env) (sec opt raw : Str),
      matchConfig s = some (sec, opt) → env.config sec opt = some raw →
      replace_config s env = Except.ok (List.intercalate ['\n']
        ((splitChar '\n' raw).map (fun line => expand_factor_conditions line env)))
      ∧ splitChar '\n' (List.intercalate ['\n']
          ((splitChar '\n' raw).map (fun line => expand_factor_conditions line env)))
        = (splitChar '\n' raw).map (fun line => expand_factor_conditions line env)
      ∧ ((splitChar '\n' raw).map
          (fun line => expand_factor_conditions line env)).length
        = (splitChar '\n' raw).length := by
  intro s env sec opt raw h1 h2
  refine ⟨?_, ?_, by simp⟩
  · simp only [replace_config, h1, h2]
  · apply splitChar_intercalate
    · cases hsp : splitChar '\n' raw with
      | nil => exact absurd hsp (splitChar_ne_nil _ _)
      | cons a t => simp [hsp]
    · intro x hx
      obtain ⟨line, hline, rfl⟩ := List.mem_map.mp hx
      exact efc_no_newline line env (not_mem_of_mem_splitChar '\n' raw line hline)

/-- Witness for C8: a three-line option with one failing factor line keeps
three lines, the failing one empty. -/
theorem claim8_config_strategy_witness :
    replace_config (ofS "[testenv]deps") envCfg =
      Except.ok (ofS "docformatter\nnose\n") := by
  have h := (claim8_config_strategy (ofS "[testenv]deps") envCfg (ofS "testenv")
    (ofS "deps") (ofS "py\x7b33,34\x7d: docformatter\nnose\npy26: old") rfl rfl).1
  rw [h]
  rfl

/-- A failed leftmost group search fails on the tail too, and rules out a
group match right at the head. -/
theorem findGroup_none_cons {c : Char} {cs : Str}
    (h : findGroup (c :: cs) = none) :
    findGroup cs = none ∧ (c = '\x7b' → takeInner cs = none) := by
  by_cases hc : c = '\x7b'
  · subst hc
    simp only [findGroup, if_pos rfl] at h
    cases ht : takeInner cs with
    | some v =>
      obtain ⟨inn, rest⟩ := v
      rw [ht] at h
      cases h
    | none =>
      rw [ht] at h
      cases hf : findGroup cs with
      | some v =>
        obtain ⟨p, i⟩ := v
        rw [hf] at h
        cases h
      | none => exact ⟨rfl, fun _ => rfl⟩
  · simp only [findGroup, if_neg hc] at h
    cases hf : findGroup cs with
    | some v =>
      obtain ⟨p, i⟩ := v
      rw [hf] at h
      cases h
    | none => exact ⟨rfl, fun hcc => absurd hcc hc⟩

/-- With no brace group and no comma, the top-level splitter just flushes the
accumulator and the rest as one piece. -/
theorem sobF_id :
    ∀ (fuel : Nat) (l acc : Str), findGroup l = none → ',' ∉ l →
      sobF fuel l acc = if acc ++ l ≠ [] then [acc ++ l] else [] := by
  intro fuel
  induction fuel with
  | zero => intro l acc _ _; rfl
  | succ fuel ih =>
    intro l acc h hcomma
    cases l with
    | nil => simp [sobF]
    | cons a as =>
      have has : ',' ∉ as := fun hm => hcomma (List.mem_cons_of_mem a hm)
      by_cases ha : a = '\x7b'
      · have ht : takeInner as = none := (findGroup_none_cons h).2 ha
        simp only [sobF, if_pos ha, ht]
        rw [ih as (acc ++ [a]) (findGroup_none_cons h).1 has]
        simp [List.append_assoc, ha]
      · have hm : matchSep ',' (a :: as) = none := by
          cases hm : matchSep ',' (a :: as) with
          | none => rfl
          | some rest => exact absurd (matchSep_mem ',' _ rest hm) hcomma
        simp only [sobF, if_neg ha, hm]
        rw [ih as (acc ++ [a]) (findGroup_none_cons h).1 has]
        simp [List.append_assoc]

/-- C9 as stated is false: `a,b` contains no brace group, yet `bash_expand`
splits it in two rather than returning it whole. -/
theorem claim9_identity_counterexample :
    findGroup (ofS "a,b") = none ∧ bash_expand (ofS "a,b") ≠ [ofS "a,b"] := by
  exact ⟨rfl, by decide⟩

/-- C9, amended. On a string with no brace group, per-segment expansion
(`expand_curlys`) is the identity `[s]` and resolution is the identity; the
top-level `bash_expand` is the identity only when the string is additionally
non-empty and comma-free. -/
theorem claim9_amended_identity :
    ∀ (s : Str) (env : Env), findGroup s = none →
      expand_curlys s = [s]
      ∧ replace_braces s env = Except.ok s
      ∧ (s ≠ [] → ',' ∉ s → bash_expand s = [s]) := by
  intro s env h
  have hec : expand_curlys s = [s] := by
    simp [expand_curlys, matchOffsets, findGroups, findGroupsF, h, offsetsAux]
  have hsub : subPass env s = Except.ok s := by
    simp only [subPass, subPassF, h]
  have hrb : replace_braces s env = Except.ok s := by
    have h0 : replace_braces s env = iteratePasses env 4 (subPass env s) := rfl
    rw [h0, hsub]
    have h1 : iteratePasses env 4 (Except.ok s) =
        iteratePasses env 3 (subPass env s) := rfl
    rw [h1, hsub]
    have h2 : iteratePasses env 3 (Except.ok s) =
        iteratePasses env 2 (subPass env s) := rfl
    rw [h2, hsub]
    have h3 : iteratePasses env 2 (Except.ok s) =
        iteratePasses env 1 (subPass env s) := rfl
    rw [h3, hsub]
    have h4 : iteratePasses env 1 (Except.ok s) =
        iteratePasses env 0 (subPass env s) := rfl
    rw [h4, hsub]
    rfl
  refine ⟨hec, hrb, ?_⟩
  intro hne hcomma
  have hsob : split_out_of_braces s = [s] := by
    simp only [split_out_of_braces]
    rw [sobF_id _ s [] h hcomma]
    simp [hne]
  simp [bash_expand, hsob, hec]

/-- Witness for C9's amended statement at a brace-free, comma-free string. -/
theorem claim9_amended_identity_witness :
    bash_expand (ofS "ab") = [ofS "ab"]
    ∧ replace_braces (ofS "ab") env34 = Except.ok (ofS "ab") := by
  have h := claim9_amended_identity (ofS "ab") env34 rfl
  exact ⟨h.2.2 (by decide) (by decide), h.2.1⟩

/-- The top-level splitter never emits an empty piece. -/
theorem sobF_ne_nil :
    ∀ (fuel : Nat) (l acc x : Str), x ∈ sobF fuel l acc → x ≠ [] := by
  intro fuel
  induction fuel with
  | zero =>
    intro l acc x hx
    simp only [sobF] at hx
    split at hx
    · simp only [List.mem_singleton] at hx
      subst hx
      assumption
    · cases hx
  | succ fuel ih =>
    intro l acc x hx
    cases l with
    | nil =>
      simp only [sobF] at hx
      split at hx
      · simp only [List.mem_singleton] at hx
        subst hx
        assumption
      · cases hx
    | cons a as =>
      simp only [sobF] at hx
      by_cases ha : a = '\x7b'
      · rw [if_pos ha] at hx
        cases ht : takeInner as with
        | some v =>
          rw [ht] at hx
          exact ih _ _ x hx
        | none =>
          rw [ht] at hx
          exact ih _ _ x hx
      · rw [if_neg ha] at hx
        cases hm : matchSep ',' (a :: as) with
        | some rest =>
          rw [hm] at hx
          rcases List.mem_append.mp hx with h | h
          · split at h
            · simp only [List.mem_singleton] at h
              subst h
              assumption
            · cases h
          · exact ih _ _ x h
        | none =>
          rw [hm] at hx
          exact ih _ _ x hx

/-- C10. Top-level list expansion drops empty segments: the empty string
expands to the empty list, no piece of the top-level split is ever empty, and
leading, trailing or doubled commas contribute nothing. -/
theorem claim10_empty_segments :
    bash_expand (ofS "") = []
    ∧ (∀ (s x : Str), x ∈ split_out_of_braces s → x ≠ [])
    ∧ bash_expand (ofS "a,,b") = [ofS "a", ofS "b"]
    ∧ bash_expand (ofS ",a,") = [ofS "a"] := by
  refine ⟨rfl, ?_, rfl, rfl⟩
  intro s x hx
  exact sobF_ne_nil _ _ _ x hx

/-- Witness for C10's universal part at a concrete split. -/
theorem claim10_empty_segments_witness : (ofS "a") ≠ ([] : Str) :=
  claim10_empty_segments.2.1 (ofS "a,b") (ofS "a") (by decide)

end Ctox
